import Mathlib

/-!
Verification of the linear-chain CRF layer and the span-F1 evaluator of
`Cross_Domain_Slot_Filling_with_BERT` (`src/modules.py`).

The CRF core (`CRF._sequence_score`, `CRF._partition_function`,
`CRF._log_sum_exp`, `CRF._viterbi`, `CRF.loss`) is embedded over the reals:
an emission tensor `feats : [B, L, C]` becomes a function
`ℕ → ℕ → ℕ → ℝ` (batch, position, tag) together with its dimensions, and a
tag tensor `tags : [B, L]` becomes `ℕ → ℕ → ℕ`.  The evaluator `f1_score`
is embedded computably over `ℤ` lists, including its in-place sentinel
appends and Python's negative-index semantics.
-/

/-- The Potentials Store: the fields of `CRF.__init__` (`src/modules.py`,
lines 9-17).  `transitions j k` is the score of moving from tag `j` to tag
`k`; the random initial values are irrelevant to the verified properties,
so the parameters are arbitrary real-valued functions. -/
structure CRF where
  num_tags : ℕ
  transitions : ℕ → ℕ → ℝ
  start_transitions : ℕ → ℝ
  stop_transitions : ℕ → ℝ

/-- Maximum of `g` over tag indices `0, …, C-1`, as computed by
`tensor.max(dim)` in the source; meaningful for `0 < C` (torch rejects an
empty reduction). -/
noncomputable def maxOver (g : ℕ → ℝ) (C : ℕ) : ℝ :=
  (List.range C).foldl (fun m k => max m (g k)) (g 0)

/-- Index of the (first) maximal entry of `g` on `0, …, C-1`, as returned by
`tensor.max(dim)` alongside the values. -/
noncomputable def argmaxFirst (g : ℕ → ℝ) (C : ℕ) : ℕ :=
  (List.range C).foldl (fun best k => if g best < g k then k else best) 0

/-- `CRF._log_sum_exp(logits, dim)` (`src/modules.py`, lines 146-151): the
numerically-stable log-sum-exp, `max + log (Σ exp (logits - max))`, over a
tag axis of size `C`. -/
noncomputable def logSumExp (g : ℕ → ℝ) (C : ℕ) : ℝ :=
  maxOver g C + Real.log (∑ k ∈ Finset.range C, Real.exp (g k - maxOver g C))

/-- `CRF._sequence_score(feats, tags)` (`src/modules.py`, lines 56-84) for
example `b` of a batch with sequence length `L`: the gathered emission sum
(`feats.gather(2, tags…).sum`), plus the start score `start_transitions[tags[:,0]]`,
plus the unfolded transition-pair sum, plus the stop score
`stop_transitions[tags[:,-1]]`, in the source's summation order. -/
noncomputable def sequenceScore (crf : CRF) (feats : ℕ → ℕ → ℕ → ℝ)
    (tags : ℕ → ℕ → ℕ) (L b : ℕ) : ℝ :=
  (∑ t ∈ Finset.range L, feats b t (tags b t))
    + crf.start_transitions (tags b 0)
    + (∑ t ∈ Finset.range (L - 1), crf.transitions (tags b t) (tags b (t + 1)))
    + crf.stop_transitions (tags b (L - 1))

/-- The forward variable of `CRF._partition_function` (`src/modules.py`,
lines 101-106): `forwardAlpha crf feats C b i j` is `a[b, j]` after the loop
has processed positions `1, …, i`. -/
noncomputable def forwardAlpha (crf : CRF) (feats : ℕ → ℕ → ℕ → ℝ)
    (C b : ℕ) : ℕ → ℕ → ℝ
  | 0, j => feats b 0 j + crf.start_transitions j
  | i + 1, j =>
    logSumExp
      (fun k => forwardAlpha crf feats C b i k + crf.transitions k j + feats b (i + 1) j) C

/-- `CRF._partition_function(feats)` (`src/modules.py`, lines 86-108) for
example `b`: the final `log_sum_exp(a + stop_transitions, 1)` after the
forward recursion over positions `1, …, L-1`. -/
noncomputable def partitionFunction (crf : CRF) (feats : ℕ → ℕ → ℕ → ℝ)
    (C L b : ℕ) : ℝ :=
  logSumExp (fun j => forwardAlpha crf feats C b (L - 1) j + crf.stop_transitions j) C

/-- The Viterbi value of `CRF._viterbi` (`src/modules.py`, lines 122-131):
`viterbiV crf feats C b i j` is `v[b, j]` after the loop has processed
positions `1, …, i` (`(v.unsqueeze(-1) + transitions).max(1)` then `v + feat`). -/
noncomputable def viterbiV (crf : CRF) (feats : ℕ → ℕ → ℕ → ℝ)
    (C b : ℕ) : ℕ → ℕ → ℝ
  | 0, j => feats b 0 j + crf.start_transitions j
  | i + 1, j =>
    maxOver (fun k => viterbiV crf feats C b i k + crf.transitions k j) C + feats b (i + 1) j

/-- The back-pointer recorded in `paths` by `CRF._viterbi`
(`src/modules.py`, lines 128-130): given the tag `j` chosen at position
`i + 1`, the best tag at position `i`. -/
noncomputable def viterbiPtr (crf : CRF) (feats : ℕ → ℕ → ℕ → ℝ)
    (C b i j : ℕ) : ℕ :=
  argmaxFirst (fun k => viterbiV crf feats C b i k + crf.transitions k j) C

/-- The tag selected by `(v + self.stop_transitions…).max(1, True)`
(`src/modules.py`, line 134): the last tag of the decoded sequence. -/
noncomputable def finalTag (crf : CRF) (feats : ℕ → ℕ → ℕ → ℝ)
    (C b L : ℕ) : ℕ :=
  argmaxFirst (fun j => viterbiV crf feats C b (L - 1) j + crf.stop_transitions j) C

/-- The backtracking loop of `CRF._viterbi` (`src/modules.py`, lines
136-142): `btTagBack crf feats C b i j k` is the tag reached `k` gather
steps back from position `i`, starting from tag `j` at position `i`. -/
noncomputable def btTagBack (crf : CRF) (feats : ℕ → ℕ → ℕ → ℝ)
    (C b i j : ℕ) : ℕ → ℕ
  | 0 => j
  | k + 1 => viterbiPtr crf feats C b (i - (k + 1)) (btTagBack crf feats C b i j k)

/-- The decoded tag sequence returned by `CRF._viterbi` (after
`tags.reverse()` and `torch.cat`): the tag at position `t` of example `b`. -/
noncomputable def viterbiDecode (crf : CRF) (feats : ℕ → ℕ → ℕ → ℝ)
    (C L b t : ℕ) : ℕ :=
  btTagBack crf feats C b (L - 1) (finalTag crf feats C b L) (L - 1 - t)

/-- Score of a tag path `p` (one batch example, positions `0, …, |p|-1`)
without the stop term: start potential of its first tag, plus emissions,
plus pairwise transitions.  This is the quantity the two dynamic programs
accumulate; `sequenceScore` adds the stop potential of the last tag. -/
noncomputable def pathScore (crf : CRF) (feats : ℕ → ℕ → ℕ → ℝ)
    (b : ℕ) (p : List ℕ) : ℝ :=
  crf.start_transitions (p.getD 0 0)
    + (∑ t ∈ Finset.range p.length, feats b t (p.getD t 0))
    + (∑ t ∈ Finset.range (p.length - 1), crf.transitions (p.getD t 0) (p.getD (t + 1) 0))

/-- All tag sequences of length `n` with tags drawn from `0, …, C-1` (the
`C^n` candidate paths a CRF over `C` tags normalizes over), built by
extending each length-`n` sequence with every possible final tag. -/
def tagSeqs (C : ℕ) : ℕ → List (List ℕ)
  | 0 => [[]]
  | n + 1 => (tagSeqs C n).flatMap (fun p => (List.range C).map (fun k => p ++ [k]))

/-- The backtracked path of `CRF._viterbi`: the length-`(i+1)` tag list
ending in tag `j` at position `i` obtained by following the recorded
back-pointers (proof companion to `btTagBack`). -/
noncomputable def btPath (crf : CRF) (feats : ℕ → ℕ → ℕ → ℝ)
    (C b : ℕ) : ℕ → ℕ → List ℕ
  | 0, j => [j]
  | i + 1, j => btPath crf feats C b i (viterbiPtr crf feats C b i j) ++ [j]

/-- `.mean()` over the batch axis (`src/modules.py`, line 54). -/
noncomputable def batchMean (g : ℕ → ℝ) (B : ℕ) : ℝ :=
  (∑ b ∈ Finset.range B, g b) / B

/-- A real-valued tensor as the Python code sees it: a dynamic shape plus a
value for every multi-index (used to model the runtime shape checks). -/
structure RTensor where
  shape : List ℕ
  val : List ℕ → ℝ

/-- An integer tag tensor with a dynamic shape. -/
structure NTensor where
  shape : List ℕ
  val : List ℕ → ℕ

/-- `CRF._partition_function` at the tensor level (`src/modules.py`, lines
86-108): unpacking `_, seq_size, num_tags = feats.shape` fails unless the
rank is 3, then the tag-count check `self.num_tags != num_tags` raises
before the forward recursion runs. -/
noncomputable def partitionT (crf : CRF) (feats : RTensor) :
    Except String (ℕ → ℝ) :=
  match feats.shape with
  | [_B, L, C] =>
    if crf.num_tags ≠ C then .error "num_tags mismatch"
    else .ok (fun b => partitionFunction crf (fun b' t j => feats.val [b', t, j]) C L b)
  | _ => .error "not enough values to unpack"

/-- `CRF._viterbi` at the tensor level (`src/modules.py`, lines 110-143):
same unpack and tag-count check as the partition function, then the decoded
tag matrix. -/
noncomputable def viterbiT (crf : CRF) (feats : RTensor) :
    Except String (ℕ → ℕ → ℕ) :=
  match feats.shape with
  | [_B, L, C] =>
    if crf.num_tags ≠ C then .error "num_tags mismatch"
    else .ok (fun b t => viterbiDecode crf (fun b' t' j => feats.val [b', t', j]) C L b t)
  | _ => .error "not enough values to unpack"

/-- `CRF.loss(feats, tags)` (`src/modules.py`, lines 26-54): the three
shape checks in source order, then
`-(sequence_score - partition_function).mean()`; the partition function's
own tag-count check can still raise inside the final branch. -/
noncomputable def lossT (crf : CRF) (feats : RTensor) (tags : NTensor) :
    Except String ℝ :=
  if feats.shape.length ≠ 3 then .error "feats must be 3-d"
  else if tags.shape.length ≠ 2 then .error "tags must be 2-d"
  else if feats.shape.take 2 ≠ tags.shape then
    .error "First two dimensions of feats and tags must match"
  else
    match partitionT crf feats with
    | .error e => .error e
    | .ok part =>
      .ok (-(batchMean
        (fun b =>
          sequenceScore crf (fun b' t j => feats.val [b', t, j])
            (fun b' t => tags.val [b', t]) (feats.shape.getD 1 0) b - part b)
        (feats.shape.getD 0 0)))

/-- Modelled from the spec: `CRF.__init__` (`src/modules.py`, lines 9-17)
contains no explicit guard, and the failure for non-positive `num_tags`
comes from the torch library calls it makes, which are outside this
repository: `torch.Tensor(n, n)` rejects a negative dimension, and
`nn.init.xavier_normal_` divides by `fan_in + fan_out = 2 n`, a
`ZeroDivisionError` when `n = 0`.  Per the spec, construction requires
`num_tags > 0` and fails otherwise.  The random parameter values are
abstracted as given functions. -/
def initCRF (n : ℤ) (T : ℕ → ℕ → ℝ) (S E : ℕ → ℝ) : Except String CRF :=
  if n < 0 then .error "negative dimension"
  else if n = 0 then .error "ZeroDivisionError"
  else .ok ⟨n.toNat, T, S, E⟩

/-- Python list indexing as used by `f1_score`: a negative index `i` reads
position `len + i` counted from the end (every read the code performs lies
in `[-1, len)`, so the out-of-range default is never consulted). -/
def pyGet (l : List ℤ) (i : ℤ) : ℤ :=
  if i < 0 then l.getD ((l.length : ℤ) + i).toNat 0 else l.getD i.toNat 0

/-- The comparison loop `for comp_ind in range(stpt-1, endpt+1)`
(`src/modules.py`, lines 181-184 and 201-204): scans `cnt` consecutive
indices starting at `lo` and reports whether `true[c] != pred[c]` anywhere
(the Python loop breaks at the first mismatch). -/
def anyMismatch (tl pl : List ℤ) (lo : ℤ) : ℕ → Bool
  | 0 => false
  | cnt + 1 => (pyGet tl lo != pyGet pl lo) || anyMismatch tl pl (lo + 1) cnt

/-- Pass 1 of `f1_score` (`src/modules.py`, lines 174-191): position `i`
with `rem` iterations left; `flag` is `entity_flag`, `stpt` the current
span start (a Python int, so an `ℤ`); accumulates `(TP, FN)`. -/
def pass1go (tl pl : List ℤ) : ℕ → ℕ → Bool → ℤ → ℕ → ℕ → ℕ × ℕ
  | 0, _, _, _, tp, fn => (tp, fn)
  | rem + 1, i, flag, stpt, tp, fn =>
    let ti := pyGet tl (i : ℤ)
    let flag1 := if ti ≠ 0 ∧ flag = false then true else flag
    let stpt1 := if ti ≠ 0 ∧ flag = false then (i : ℤ) else stpt
    if ti = 0 ∧ flag1 = true then
      if anyMismatch tl pl (stpt1 - 1) (((i : ℤ) + 1 - (stpt1 - 1)).toNat) then
        pass1go tl pl rem (i + 1) false stpt1 tp (fn + 1)
      else
        pass1go tl pl rem (i + 1) false stpt1 (tp + 1) fn
    else
      pass1go tl pl rem (i + 1) flag1 stpt1 tp fn

/-- `(TP, FN)` increments of pass 1 for one (already sentinel-extended)
`true`/`pred` pair; the loop bound is `len(pred)` as in the source. -/
def pass1 (tl pl : List ℤ) : ℕ × ℕ := pass1go tl pl pl.length 0 false 0 0 0

/-- Pass 2 of `f1_score` (`src/modules.py`, lines 193-209): identical scan
except that a span opens only where `pred[i] == 1`, and only mismatching
spans are counted (`FP`). -/
def pass2go (tl pl : List ℤ) : ℕ → ℕ → Bool → ℤ → ℕ → ℕ
  | 0, _, _, _, fp => fp
  | rem + 1, i, flag, stpt, fp =>
    let pv := pyGet pl (i : ℤ)
    let flag1 := if pv = 1 ∧ flag = false then true else flag
    let stpt1 := if pv = 1 ∧ flag = false then (i : ℤ) else stpt
    if pv = 0 ∧ flag1 = true then
      if anyMismatch tl pl (stpt1 - 1) (((i : ℤ) + 1 - (stpt1 - 1)).toNat) then
        pass2go tl pl rem (i + 1) false stpt1 (fp + 1)
      else
        pass2go tl pl rem (i + 1) false stpt1 fp
    else
      pass2go tl pl rem (i + 1) flag1 stpt1 fp

/-- `FP` increment of pass 2 for one sentinel-extended pair. -/
def pass2 (tl pl : List ℤ) : ℕ := pass2go tl pl pl.length 0 false 0 0

/-- The per-pair loop of `f1_score` (`src/modules.py`, lines 164-209):
iterates over `zip(preds, targets)`, asserts equal lengths, appends the
sentinel `0` to both lists in place, and accumulates `(TP, FN, FP)`.
Returns the final contents of the caller's `preds` and `targets` (modelling
the in-place `list.append`) together with the counts, or the
`AssertionError` that aborts the call. -/
def f1Main : List (List ℤ) → List (List ℤ) →
    List (List ℤ) × List (List ℤ) × Except String (ℕ × ℕ × ℕ)
  | [], ts => ([], ts, .ok (0, 0, 0))
  | ps, [] => (ps, [], .ok (0, 0, 0))
  | p :: ps, t :: ts =>
    if p.length ≠ t.length then (p :: ps, t :: ts, .error "AssertionError")
    else
      let p0 := p ++ [0]
      let t0 := t ++ [0]
      let rest := f1Main ps ts
      (p0 :: rest.1, t0 :: rest.2.1,
        match rest.2.2 with
        | .error e => .error e
        | .ok c =>
          .ok ((pass1 t0 p0).1 + c.1, (pass1 t0 p0).2 + c.2.1, pass2 t0 p0 + c.2.2))

/-- `f1_score(preds, targets)` (`src/modules.py`, lines 154-215): the
per-pair scan, then `precision = TP/(TP+FP)` and `recall = TP/(TP+FN)`
(Python true division, raising `ZeroDivisionError` on a zero denominator),
then the guarded final combination
`2*precision*recall/(precision+recall)` with the `precision = recall = 0`
convention. -/
def f1_score (preds targets : List (List ℤ)) : Except String ℚ :=
  match (f1Main preds targets).2.2 with
  | .error e => .error e
  | .ok c =>
    if c.1 + c.2.2 = 0 then .error "ZeroDivisionError"
    else
      let precision : ℚ := (c.1 : ℚ) / ((c.1 : ℚ) + (c.2.2 : ℚ))
      if c.1 + c.2.1 = 0 then .error "ZeroDivisionError"
      else
        let rcall : ℚ := (c.1 : ℚ) / ((c.1 : ℚ) + (c.2.1 : ℚ))
        .ok (if precision ≠ 0 ∨ rcall ≠ 0 then
          2 * precision * rcall / (precision + rcall) else 0)

/-- Zero-potential store over a single tag, for concrete instantiations. -/
noncomputable def trivCrf : CRF :=
  { num_tags := 1
    transitions := fun _ _ => 0
    start_transitions := fun _ => 0
    stop_transitions := fun _ => 0 }

/-- All-zero emission function, for concrete instantiations. -/
noncomputable def zeroFeats : ℕ → ℕ → ℕ → ℝ := fun _ _ _ => 0

/-- All-zero tag assignment, for concrete instantiations. -/
def zeroTags : ℕ → ℕ → ℕ := fun _ _ => 0

/-- A rank-1 tensor (wrong rank for `feats`), for concrete instantiations. -/
noncomputable def rankOneTensor : RTensor := ⟨[2], fun _ => 0⟩

/-- A `[1, 2, 3]`-shaped zero tensor, for concrete instantiations. -/
noncomputable def shape123Tensor : RTensor := ⟨[1, 2, 3], fun _ => 0⟩

/-- A `[1, 1, 1]`-shaped zero tensor, for concrete instantiations. -/
noncomputable def unitFeats : RTensor := ⟨[1, 1, 1], fun _ => 0⟩

/-- A `[1, 1]`-shaped zero tag tensor, for concrete instantiations. -/
def unitTags : NTensor := ⟨[1, 1], fun _ => 0⟩


theorem maxOver_zero (g : ℕ → ℝ) : maxOver g 0 = g 0 := rfl

theorem maxOver_succ (g : ℕ → ℝ) (C : ℕ) :
    maxOver g (C + 1) = max (maxOver g C) (g C) := by
  unfold maxOver
  rw [List.range_succ, List.foldl_append]
  rfl

theorem le_maxOver (g : ℕ → ℝ) {k C : ℕ} (hk : k < C) : g k ≤ maxOver g C := by
  induction C with
  | zero => omega
  | succ n ih =>
    rw [maxOver_succ]
    rcases Nat.lt_succ_iff_lt_or_eq.mp hk with h | h
    · exact le_trans (ih h) (le_max_left _ _)
    · subst h; exact le_max_right _ _

theorem argmaxFirst_succ (g : ℕ → ℝ) (C : ℕ) :
    argmaxFirst g (C + 1) =
      (if g (argmaxFirst g C) < g C then C else argmaxFirst g C) := by
  unfold argmaxFirst
  rw [List.range_succ, List.foldl_append]
  rfl

theorem argmaxFirst_spec (g : ℕ → ℝ) {C : ℕ} (hC : 0 < C) :
    argmaxFirst g C < C ∧ g (argmaxFirst g C) = maxOver g C := by
  induction C with
  | zero => omega
  | succ n ih =>
    rcases Nat.eq_zero_or_pos n with hn | hn
    · subst hn
      have ha : argmaxFirst g 0 = 0 := rfl
      constructor
      · rw [argmaxFirst_succ, ha]; split <;> omega
      · rw [argmaxFirst_succ, maxOver_succ, maxOver_zero, ha]
        split <;> simp
    · obtain ⟨ihlt, ihmax⟩ := ih hn
      rw [argmaxFirst_succ, maxOver_succ]
      by_cases h : g (argmaxFirst g n) < g n
      · rw [if_pos h]
        refine ⟨Nat.lt_succ_self n, ?_⟩
        rw [max_eq_right (ihmax ▸ le_of_lt h)]
      · rw [if_neg h]
        refine ⟨Nat.lt_succ_of_lt ihlt, ?_⟩
        rw [max_eq_left (ihmax ▸ le_of_not_lt h), ihmax]

theorem sum_exp_pos (g : ℕ → ℝ) {C : ℕ} (hC : 0 < C) :
    0 < ∑ k ∈ Finset.range C, Real.exp (g k) :=
  Finset.sum_pos (fun k _ => Real.exp_pos (g k))
    (Finset.nonempty_range_iff.mpr (by omega))

/-- The stable log-sum-exp agrees with the naive `log (Σ exp)` in exact real
arithmetic. -/
theorem logSumExp_eq (g : ℕ → ℝ) {C : ℕ} (hC : 0 < C) :
    logSumExp g C = Real.log (∑ k ∈ Finset.range C, Real.exp (g k)) := by
  unfold logSumExp
  have hsum : (∑ k ∈ Finset.range C, Real.exp (g k - maxOver g C)) =
      (∑ k ∈ Finset.range C, Real.exp (g k)) * Real.exp (-(maxOver g C)) := by
    rw [Finset.sum_mul]
    refine Finset.sum_congr rfl (fun k _ => ?_)
    rw [← Real.exp_add]; ring_nf
  have hpos : 0 < ∑ k ∈ Finset.range C, Real.exp (g k) := by
    refine Finset.sum_pos (fun k _ => Real.exp_pos (g k)) ?_
    exact Finset.nonempty_range_iff.mpr (by omega)
  rw [hsum, Real.log_mul (ne_of_gt hpos) (ne_of_gt (Real.exp_pos _)), Real.log_exp]
  ring

theorem exp_logSumExp (g : ℕ → ℝ) {C : ℕ} (hC : 0 < C) :
    Real.exp (logSumExp g C) = ∑ k ∈ Finset.range C, Real.exp (g k) := by
  rw [logSumExp_eq g hC]
  refine Real.exp_log ?_
  refine Finset.sum_pos (fun k _ => Real.exp_pos (g k)) ?_
  exact Finset.nonempty_range_iff.mpr (by omega)

theorem listSum_map_congr {α : Type} (l : List α) (f g : α → ℝ)
    (h : ∀ x ∈ l, f x = g x) : (l.map f).sum = (l.map g).sum := by
  induction l with
  | nil => rfl
  | cons a l ih =>
    simp only [List.map_cons, List.sum_cons]
    rw [h a (List.mem_cons_self a l), ih (fun x hx => h x (List.mem_cons_of_mem a hx))]

theorem listSum_add_distrib {α : Type} (l : List α) (f g : α → ℝ) :
    (l.map (fun x => f x + g x)).sum = (l.map f).sum + (l.map g).sum := by
  induction l with
  | nil => simp
  | cons a l ih => simp only [List.map_cons, List.sum_cons, ih]; ring

theorem listSum_map_mul_right {α : Type} (l : List α) (f : α → ℝ) (c : ℝ) :
    (l.map (fun x => f x * c)).sum = (l.map f).sum * c := by
  induction l with
  | nil => simp
  | cons a l ih => simp only [List.map_cons, List.sum_cons, ih]; ring

theorem listSum_range (n : ℕ) (g : ℕ → ℝ) :
    ((List.range n).map g).sum = ∑ k ∈ Finset.range n, g k := by
  induction n with
  | zero => simp
  | succ m ih =>
    rw [List.range_succ, List.map_append, List.sum_append, Finset.sum_range_succ, ih]
    simp

theorem listSum_swap {α : Type} (l : List α) (C : ℕ) (h : α → ℕ → ℝ) :
    (∑ k ∈ Finset.range C, (l.map (fun p => h p k)).sum)
      = (l.map (fun p => ∑ k ∈ Finset.range C, h p k)).sum := by
  induction l with
  | nil => simp
  | cons a l ih =>
    simp only [List.map_cons, List.sum_cons, ← ih]
    rw [Finset.sum_add_distrib]

theorem listSum_flatMap {α β : Type} (l : List α) (f : α → List β) (g : β → ℝ) :
    ((l.flatMap f).map g).sum = (l.map (fun a => ((f a).map g).sum)).sum := by
  induction l with
  | nil => simp
  | cons a l ih =>
    simp only [List.flatMap_cons, List.map_append, List.sum_append, List.map_cons,
      List.sum_cons, ih]

theorem mem_tagSeqs_succ {C n : ℕ} {p : List ℕ} :
    p ∈ tagSeqs C (n + 1) ↔ ∃ q ∈ tagSeqs C n, ∃ k < C, p = q ++ [k] := by
  simp only [tagSeqs, List.mem_flatMap, List.mem_map, List.mem_range]
  constructor
  · rintro ⟨q, hq, k, hk, rfl⟩
    exact ⟨q, hq, k, hk, rfl⟩
  · rintro ⟨q, hq, k, hk, rfl⟩
    exact ⟨q, hq, k, hk, rfl⟩

theorem tagSeqs_length {C n : ℕ} {p : List ℕ} (hp : p ∈ tagSeqs C n) :
    p.length = n := by
  induction n generalizing p with
  | zero => simp only [tagSeqs, List.mem_singleton] at hp; simp [hp]
  | succ m ih =>
    obtain ⟨q, hq, k, _, rfl⟩ := mem_tagSeqs_succ.mp hp
    simp [ih hq]

/-- `tagSeqs C n` contains exactly the tag sequences the spec enumerates:
lists of length `n` with every tag below `C`. -/
theorem mem_tagSeqs_iff {C n : ℕ} {p : List ℕ} :
    p ∈ tagSeqs C n ↔ p.length = n ∧ ∀ x ∈ p, x < C := by
  induction n generalizing p with
  | zero =>
    simp only [tagSeqs, List.mem_singleton]
    constructor
    · rintro rfl; simp
    · rintro ⟨h, _⟩; exact List.eq_nil_of_length_eq_zero h
  | succ m ih =>
    rw [mem_tagSeqs_succ]
    constructor
    · rintro ⟨q, hq, k, hk, rfl⟩
      obtain ⟨hlen, helem⟩ := ih.mp hq
      refine ⟨by simp [hlen], fun x hx => ?_⟩
      rcases List.mem_append.mp hx with h | h
      · exact helem x h
      · rw [List.mem_singleton.mp h]; exact hk
    · rintro ⟨hlen, helem⟩
      have hne : p ≠ [] := by
        intro h; rw [h] at hlen; exact absurd hlen (by simp)
      refine ⟨p.dropLast, ih.mpr ⟨?_, ?_⟩, p.getLast hne, ?_, ?_⟩
      · simp [List.length_dropLast, hlen]
      · exact fun x hx => helem x (List.dropLast_subset p hx)
      · exact helem _ (List.getLast_mem hne)
      · exact (List.dropLast_append_getLast hne).symm

theorem length_flatMap_const {α β : Type} (l : List α) (f : α → List β) (c : ℕ)
    (h : ∀ a ∈ l, (f a).length = c) : (l.flatMap f).length = l.length * c := by
  induction l with
  | nil => simp
  | cons a l ih =>
    rw [List.flatMap_cons, List.length_append, h a (List.mem_cons_self a l),
      ih (fun x hx => h x (List.mem_cons_of_mem a hx)), List.length_cons]
    ring

theorem tagSeqs_count (C n : ℕ) : (tagSeqs C n).length = C ^ n := by
  induction n with
  | zero => rfl
  | succ m ih =>
    have h1 : tagSeqs C (m + 1)
        = (tagSeqs C m).flatMap (fun p => (List.range C).map (fun k => p ++ [k])) := rfl
    rw [h1, length_flatMap_const _ _ C (fun a _ => by simp), ih, pow_succ]

theorem pathScore_singleton (crf : CRF) (feats : ℕ → ℕ → ℕ → ℝ) (b j : ℕ) :
    pathScore crf feats b [j] = crf.start_transitions j + feats b 0 j := by
  unfold pathScore
  simp

theorem getD_snoc_last (p : List ℕ) (j : ℕ) : (p ++ [j]).getD p.length 0 = j := by
  rw [List.getD_append_right _ _ _ _ (le_refl _)]
  simp

/-- Appending one tag to a nonempty path adds one transition score and one
emission score. -/
theorem pathScore_append (crf : CRF) (feats : ℕ → ℕ → ℕ → ℝ) (b : ℕ)
    (p : List ℕ) (j m : ℕ) (hp : p.length = m + 1) :
    pathScore crf feats b (p ++ [j])
      = pathScore crf feats b p + crf.transitions (p.getD m 0) j
        + feats b (m + 1) j := by
  have hlen : (p ++ [j]).length = m + 2 := by simp [hp]
  have h0 : (p ++ [j]).getD 0 0 = p.getD 0 0 :=
    List.getD_append _ _ _ _ (by omega)
  have hlast : (p ++ [j]).getD (m + 1) 0 = j := by
    rw [← hp]; exact getD_snoc_last p j
  have hem : (∑ t ∈ Finset.range (m + 2), feats b t ((p ++ [j]).getD t 0))
      = (∑ t ∈ Finset.range (m + 1), feats b t (p.getD t 0)) + feats b (m + 1) j := by
    rw [Finset.sum_range_succ, hlast]
    congr 1
    refine Finset.sum_congr rfl (fun t ht => ?_)
    rw [List.getD_append _ _ _ _ (by rw [hp]; exact Finset.mem_range.mp ht)]
  have htr : (∑ t ∈ Finset.range (m + 2 - 1),
        crf.transitions ((p ++ [j]).getD t 0) ((p ++ [j]).getD (t + 1) 0))
      = (∑ t ∈ Finset.range m, crf.transitions (p.getD t 0) (p.getD (t + 1) 0))
        + crf.transitions (p.getD m 0) j := by
    have h21 : m + 2 - 1 = m + 1 := rfl
    rw [h21, Finset.sum_range_succ, hlast,
      List.getD_append _ _ _ _ (show m < p.length by omega)]
    congr 1
    refine Finset.sum_congr rfl (fun t ht => ?_)
    have ht' := Finset.mem_range.mp ht
    rw [List.getD_append _ _ _ _ (show t < p.length by omega),
      List.getD_append _ _ _ _ (show t + 1 < p.length by omega)]
  unfold pathScore
  rw [hlen, hp, h0, hem, htr]
  simp only [Nat.add_sub_cancel]
  ring

/-- `_sequence_score` of the tag function reading off a length-`(m+1)` path
`q` is the path score plus the stop potential of the last tag. -/
theorem sequenceScore_eq_pathScore (crf : CRF) (feats : ℕ → ℕ → ℕ → ℝ)
    (b m : ℕ) (q : List ℕ) (hq : q.length = m + 1) :
    sequenceScore crf feats (fun _ t => q.getD t 0) (m + 1) b
      = pathScore crf feats b q + crf.stop_transitions (q.getD m 0) := by
  unfold sequenceScore pathScore
  rw [hq]
  simp only [Nat.add_sub_cancel]
  ring

/-- `_sequence_score` only reads tags at positions `0, …, L-1`. -/
theorem sequenceScore_congr (crf : CRF) (feats : ℕ → ℕ → ℕ → ℝ)
    (tg1 tg2 : ℕ → ℕ → ℕ) (m b : ℕ)
    (h : ∀ t < m + 1, tg1 b t = tg2 b t) :
    sequenceScore crf feats tg1 (m + 1) b = sequenceScore crf feats tg2 (m + 1) b := by
  unfold sequenceScore
  simp only [Nat.add_sub_cancel]
  have hem : (∑ t ∈ Finset.range (m + 1), feats b t (tg1 b t))
      = ∑ t ∈ Finset.range (m + 1), feats b t (tg2 b t) :=
    Finset.sum_congr rfl (fun t ht => by rw [h t (Finset.mem_range.mp ht)])
  have htr : (∑ t ∈ Finset.range m, crf.transitions (tg1 b t) (tg1 b (t + 1)))
      = ∑ t ∈ Finset.range m, crf.transitions (tg2 b t) (tg2 b (t + 1)) :=
    Finset.sum_congr rfl (fun t ht => by
      have ht' := Finset.mem_range.mp ht
      rw [h t (by omega), h (t + 1) (by omega)])
  rw [hem, htr, h 0 (by omega), h m (by omega)]

/-- Exactness of the forward recursion: after processing positions up to
`i`, the exponentiated forward variable at tag `j` is the sum of
exponentiated scores of all length-`(i+1)` paths ending in `j`. -/
theorem exp_forwardAlpha (crf : CRF) (feats : ℕ → ℕ → ℕ → ℝ) (b : ℕ)
    {C : ℕ} (hC : 0 < C) (i j : ℕ) :
    Real.exp (forwardAlpha crf feats C b i j)
      = ((tagSeqs C i).map (fun p => Real.exp (pathScore crf feats b (p ++ [j])))).sum := by
  induction i generalizing j with
  | zero =>
    show Real.exp (feats b 0 j + crf.start_transitions j) = _
    simp only [tagSeqs, List.map_cons, List.map_nil, List.sum_cons, List.sum_nil,
      List.nil_append, pathScore_singleton, add_zero]
    rw [add_comm]
  | succ i ih =>
    have hstep : forwardAlpha crf feats C b (i + 1) j
        = logSumExp
            (fun k => forwardAlpha crf feats C b i k + crf.transitions k j + feats b (i + 1) j)
            C := rfl
    have hterm : ∀ k,
        Real.exp (forwardAlpha crf feats C b i k + crf.transitions k j + feats b (i + 1) j)
          = ((tagSeqs C i).map
              (fun p => Real.exp (pathScore crf feats b (p ++ [k] ++ [j])))).sum := by
      intro k
      rw [show forwardAlpha crf feats C b i k + crf.transitions k j + feats b (i + 1) j
            = forwardAlpha crf feats C b i k + (crf.transitions k j + feats b (i + 1) j)
          from by ring,
        Real.exp_add, ih k, ← listSum_map_mul_right]
      refine listSum_map_congr _ _ _ (fun p hp => ?_)
      have hplen : (p ++ [k]).length = i + 1 := by simp [tagSeqs_length hp]
      have hlast : (p ++ [k]).getD i 0 = k := by
        have h := getD_snoc_last p k
        rwa [tagSeqs_length hp] at h
      rw [pathScore_append crf feats b (p ++ [k]) j i hplen, hlast, ← Real.exp_add]
      congr 1
      ring
    have hr : ((tagSeqs C (i + 1)).map
          (fun q => Real.exp (pathScore crf feats b (q ++ [j])))).sum
        = ((tagSeqs C i).map
            (fun p => ∑ k ∈ Finset.range C,
              Real.exp (pathScore crf feats b (p ++ [k] ++ [j])))).sum := by
      show ((((tagSeqs C i).flatMap
          (fun p => (List.range C).map (fun k => p ++ [k]))).map
            (fun q => Real.exp (pathScore crf feats b (q ++ [j])))).sum = _)
      rw [listSum_flatMap]
      refine listSum_map_congr _ _ _ (fun p hp => ?_)
      rw [List.map_map, listSum_range]
      rfl
    calc Real.exp (forwardAlpha crf feats C b (i + 1) j)
        = ∑ k ∈ Finset.range C,
            Real.exp (forwardAlpha crf feats C b i k + crf.transitions k j
              + feats b (i + 1) j) := by rw [hstep, exp_logSumExp _ hC]
      _ = ∑ k ∈ Finset.range C,
            ((tagSeqs C i).map
              (fun p => Real.exp (pathScore crf feats b (p ++ [k] ++ [j])))).sum :=
          Finset.sum_congr rfl (fun k _ => hterm k)
      _ = ((tagSeqs C i).map
            (fun p => ∑ k ∈ Finset.range C,
              Real.exp (pathScore crf feats b (p ++ [k] ++ [j])))).sum :=
          listSum_swap _ _ _
      _ = ((tagSeqs C (i + 1)).map
            (fun q => Real.exp (pathScore crf feats b (q ++ [j])))).sum := hr.symm

/-- The partition function is the log of the sum, over every candidate tag
path of length `M + 1`, of the exponentiated path-plus-stop score. -/
theorem partition_eq_log_sum (crf : CRF) (feats : ℕ → ℕ → ℕ → ℝ) (b : ℕ)
    {C : ℕ} (hC : 0 < C) (M : ℕ) :
    partitionFunction crf feats C (M + 1) b
      = Real.log (((tagSeqs C (M + 1)).map
          (fun q => Real.exp
            (pathScore crf feats b q + crf.stop_transitions (q.getD M 0)))).sum) := by
  unfold partitionFunction
  simp only [Nat.add_sub_cancel]
  rw [logSumExp_eq _ hC]
  congr 1
  calc ∑ j ∈ Finset.range C,
        Real.exp (forwardAlpha crf feats C b M j + crf.stop_transitions j)
      = ∑ j ∈ Finset.range C,
          ((tagSeqs C M).map
            (fun p => Real.exp
              (pathScore crf feats b (p ++ [j]) + crf.stop_transitions j))).sum := by
        refine Finset.sum_congr rfl (fun jj _ => ?_)
        rw [Real.exp_add, exp_forwardAlpha crf feats b hC M jj, ← listSum_map_mul_right]
        exact listSum_map_congr _ _ _ (fun p hp => by rw [← Real.exp_add])
    _ = ((tagSeqs C M).map
          (fun p => ∑ j ∈ Finset.range C,
            Real.exp (pathScore crf feats b (p ++ [j]) + crf.stop_transitions j))).sum :=
        listSum_swap _ _ _
    _ = ((tagSeqs C (M + 1)).map
          (fun q => Real.exp
            (pathScore crf feats b q + crf.stop_transitions (q.getD M 0)))).sum := by
        show _ = (((tagSeqs C M).flatMap
            (fun p => (List.range C).map (fun k => p ++ [k]))).map
              (fun q => Real.exp
                (pathScore crf feats b q + crf.stop_transitions (q.getD M 0)))).sum
        rw [listSum_flatMap]
        refine (listSum_map_congr _ _ _ (fun p hp => ?_)).symm
        rw [List.map_map, listSum_range]
        refine Finset.sum_congr rfl (fun j _ => ?_)
        simp only [Function.comp]
        have hg : (p ++ [j]).getD M 0 = j := by
          have h := getD_snoc_last p j
          rwa [tagSeqs_length hp] at h
        rw [hg]


theorem btPath_length (crf : CRF) (feats : ℕ → ℕ → ℕ → ℝ) (C b : ℕ) :
    ∀ i j, (btPath crf feats C b i j).length = i + 1 := by
  intro i
  induction i with
  | zero => intro j; rfl
  | succ i ih =>
    intro j
    have h : btPath crf feats C b (i + 1) j
        = btPath crf feats C b i (viterbiPtr crf feats C b i j) ++ [j] := rfl
    rw [h, List.length_append, ih]
    rfl

theorem btPath_getD_last (crf : CRF) (feats : ℕ → ℕ → ℕ → ℝ) (C b : ℕ) :
    ∀ i j, (btPath crf feats C b i j).getD i 0 = j := by
  intro i
  induction i with
  | zero => intro j; rfl
  | succ i ih =>
    intro j
    have h : btPath crf feats C b (i + 1) j
        = btPath crf feats C b i (viterbiPtr crf feats C b i j) ++ [j] := rfl
    rw [h, List.getD_append_right _ _ _ _ (le_of_eq (btPath_length crf feats C b i _))]
    rw [btPath_length crf feats C b i _]
    simp

/-- The backtracked path attains the Viterbi value. -/
theorem btPath_score (crf : CRF) (feats : ℕ → ℕ → ℕ → ℝ) (b : ℕ)
    {C : ℕ} (hC : 0 < C) :
    ∀ i j, pathScore crf feats b (btPath crf feats C b i j)
      = viterbiV crf feats C b i j := by
  intro i
  induction i with
  | zero =>
    intro j
    show pathScore crf feats b [j] = feats b 0 j + crf.start_transitions j
    rw [pathScore_singleton]
    ring
  | succ i ih =>
    intro j
    have h : btPath crf feats C b (i + 1) j
        = btPath crf feats C b i (viterbiPtr crf feats C b i j) ++ [j] := rfl
    obtain ⟨hlt, hmax⟩ :=
      argmaxFirst_spec (fun k => viterbiV crf feats C b i k + crf.transitions k j) hC
    rw [h, pathScore_append crf feats b _ j i (btPath_length crf feats C b i _),
      btPath_getD_last, ih]
    show viterbiV crf feats C b i (viterbiPtr crf feats C b i j)
          + crf.transitions (viterbiPtr crf feats C b i j) j + feats b (i + 1) j
        = maxOver (fun k => viterbiV crf feats C b i k + crf.transitions k j) C
          + feats b (i + 1) j
    rw [← hmax]
    rfl

/-- Any candidate path ending in tag `j` scores at most the Viterbi value. -/
theorem pathScore_le_viterbiV (crf : CRF) (feats : ℕ → ℕ → ℕ → ℝ) (b : ℕ)
    {C : ℕ} (_hC : 0 < C) :
    ∀ i, ∀ p ∈ tagSeqs C i, ∀ j,
      pathScore crf feats b (p ++ [j]) ≤ viterbiV crf feats C b i j := by
  intro i
  induction i with
  | zero =>
    intro p hp j
    have hp0 : p = [] := by simpa [tagSeqs] using hp
    subst hp0
    rw [List.nil_append, pathScore_singleton]
    show _ ≤ feats b 0 j + crf.start_transitions j
    apply le_of_eq
    ring
  | succ i ih =>
    intro p hp j
    obtain ⟨q, hq, k, hk, rfl⟩ := mem_tagSeqs_succ.mp hp
    have hqlen : (q ++ [k]).length = i + 1 := by simp [tagSeqs_length hq]
    have hql : (q ++ [k]).getD i 0 = k := by
      have h := getD_snoc_last q k
      rwa [tagSeqs_length hq] at h
    rw [pathScore_append crf feats b (q ++ [k]) j i hqlen, hql]
    have h1 : pathScore crf feats b (q ++ [k]) ≤ viterbiV crf feats C b i k := ih q hq k
    have h2 : viterbiV crf feats C b i k + crf.transitions k j
        ≤ maxOver (fun q' => viterbiV crf feats C b i q' + crf.transitions q' j) C :=
      le_maxOver (fun q' => viterbiV crf feats C b i q' + crf.transitions q' j) hk
    show _ ≤ maxOver (fun q' => viterbiV crf feats C b i q' + crf.transitions q' j) C
        + feats b (i + 1) j
    linarith

theorem btTagBack_shift (crf : CRF) (feats : ℕ → ℕ → ℕ → ℝ) (C b i j : ℕ) :
    ∀ k, btTagBack crf feats C b (i + 1) j (k + 1)
      = btTagBack crf feats C b i (viterbiPtr crf feats C b i j) k := by
  intro k
  induction k with
  | zero =>
    show viterbiPtr crf feats C b (i + 1 - 1) j = viterbiPtr crf feats C b i j
    norm_num
  | succ k ih =>
    show viterbiPtr crf feats C b (i + 1 - (k + 2)) (btTagBack crf feats C b (i + 1) j (k + 1))
        = viterbiPtr crf feats C b (i - (k + 1))
            (btTagBack crf feats C b i (viterbiPtr crf feats C b i j) k)
    rw [ih]
    congr 1
    omega

theorem btPath_getD_eq (crf : CRF) (feats : ℕ → ℕ → ℕ → ℝ) (C b : ℕ) :
    ∀ i j k, k ≤ i →
      (btPath crf feats C b i j).getD (i - k) 0 = btTagBack crf feats C b i j k := by
  intro i
  induction i with
  | zero =>
    intro j k hk
    have hk0 : k = 0 := by omega
    subst hk0
    rfl
  | succ i ih =>
    intro j k hk
    match k with
    | 0 =>
      simpa using btPath_getD_last crf feats C b (i + 1) j
    | k + 1 =>
      have hk' : k ≤ i := by omega
      have h : btPath crf feats C b (i + 1) j
          = btPath crf feats C b i (viterbiPtr crf feats C b i j) ++ [j] := rfl
      have hidx : (i + 1) - (k + 1) = i - k := by omega
      rw [h, hidx, List.getD_append _ _ _ _ (by rw [btPath_length]; omega),
        ih _ k hk', btTagBack_shift]

theorem btTagBack_lt (crf : CRF) (feats : ℕ → ℕ → ℕ → ℝ) (b : ℕ)
    {C : ℕ} (hC : 0 < C) (i j : ℕ) (hj : j < C) :
    ∀ k, btTagBack crf feats C b i j k < C := by
  intro k
  induction k with
  | zero => exact hj
  | succ k ih =>
    show viterbiPtr crf feats C b (i - (k + 1)) (btTagBack crf feats C b i j k) < C
    exact (argmaxFirst_spec _ hC).1

/-- C3: for every emission function, tag assignment, sequence length and
example, `CRF._sequence_score` equals the sum over positions of the gathered
emissions, plus the sum over consecutive pairs of transition potentials,
plus the start potential of the first tag, plus the stop potential of the
last tag. -/
theorem crf_sequence_score_decomposition (crf : CRF) (feats : ℕ → ℕ → ℕ → ℝ)
    (tags : ℕ → ℕ → ℕ) (L b : ℕ) :
    sequenceScore crf feats tags L b
      = (∑ t ∈ Finset.range L, feats b t (tags b t))
        + (∑ t ∈ Finset.range (L - 1), crf.transitions (tags b t) (tags b (t + 1)))
        + crf.start_transitions (tags b 0)
        + crf.stop_transitions (tags b (L - 1)) := by
  unfold sequenceScore
  ring

/-- C2: for every example `b` of an emission tensor with `C = num_tags > 0`
columns and `L = M + 1` positions, `CRF._partition_function` equals the log
of the sum of `exp (CRF._sequence_score)` over all `C^L` candidate tag
sequences; `tagSeqs` enumerates exactly the `C^L` sequences of length `L`
with every tag below `C`. -/
theorem crf_partition_eq_brute (crf : CRF) (feats : ℕ → ℕ → ℕ → ℝ)
    (b M : ℕ) (hC : 0 < crf.num_tags) :
    partitionFunction crf feats crf.num_tags (M + 1) b
      = Real.log (((tagSeqs crf.num_tags (M + 1)).map
          (fun p => Real.exp
            (sequenceScore crf feats (fun _ t => p.getD t 0) (M + 1) b))).sum)
    ∧ (tagSeqs crf.num_tags (M + 1)).length = crf.num_tags ^ (M + 1)
    ∧ ∀ p, p ∈ tagSeqs crf.num_tags (M + 1)
        ↔ p.length = M + 1 ∧ ∀ x ∈ p, x < crf.num_tags := by
  refine ⟨?_, tagSeqs_count _ _, fun p => mem_tagSeqs_iff⟩
  rw [partition_eq_log_sum crf feats b hC M]
  congr 1
  refine (listSum_map_congr _ _ _ (fun q hq => ?_)).symm
  congr 1
  exact sequenceScore_eq_pathScore crf feats b M q (tagSeqs_length hq)

theorem crf_partition_eq_brute_witness :
    partitionFunction trivCrf zeroFeats trivCrf.num_tags 1 0
      = Real.log (((tagSeqs trivCrf.num_tags 1).map
          (fun p => Real.exp
            (sequenceScore trivCrf zeroFeats (fun _ t => p.getD t 0) 1 0))).sum) :=
  (crf_partition_eq_brute trivCrf zeroFeats 0 0 (by decide)).1

/-- C5: the partition function dominates the sequence score of every tag
sequence whose values lie in `[0, num_tags)`. -/
theorem crf_partition_ge_score (crf : CRF) (feats : ℕ → ℕ → ℕ → ℝ)
    (tags : ℕ → ℕ → ℕ) (b M : ℕ) (hC : 0 < crf.num_tags)
    (htags : ∀ t < M + 1, tags b t < crf.num_tags) :
    sequenceScore crf feats tags (M + 1) b
      ≤ partitionFunction crf feats crf.num_tags (M + 1) b := by
  set C := crf.num_tags with hCdef
  set p : List ℕ := (List.range (M + 1)).map (fun t => tags b t) with hpdef
  have hplen : p.length = M + 1 := by simp [hpdef]
  have hpget : ∀ t < M + 1, p.getD t 0 = tags b t := by
    intro t ht
    rw [hpdef, List.getD_eq_getElem _ _ (by simpa using ht)]
    simp
  have hmem : p ∈ tagSeqs C (M + 1) := by
    refine mem_tagSeqs_iff.mpr ⟨hplen, ?_⟩
    intro x hx
    rw [hpdef] at hx
    obtain ⟨t, ht, rfl⟩ := List.mem_map.mp hx
    exact htags t (List.mem_range.mp ht)
  have heq : sequenceScore crf feats tags (M + 1) b
      = sequenceScore crf feats (fun _ t => p.getD t 0) (M + 1) b :=
    sequenceScore_congr crf feats tags (fun _ t => p.getD t 0) M b
      (fun t ht => (hpget t ht).symm)
  rw [heq, sequenceScore_eq_pathScore crf feats b M p hplen,
    partition_eq_log_sum crf feats b hC M]
  have hx : Real.exp (pathScore crf feats b p + crf.stop_transitions (p.getD M 0))
      ∈ (tagSeqs C (M + 1)).map
          (fun q => Real.exp (pathScore crf feats b q + crf.stop_transitions (q.getD M 0))) :=
    List.mem_map_of_mem _ hmem
  have hnn : ∀ x ∈ (tagSeqs C (M + 1)).map
      (fun q => Real.exp (pathScore crf feats b q + crf.stop_transitions (q.getD M 0))),
      (0 : ℝ) ≤ x := by
    intro x hxx
    obtain ⟨q, _, rfl⟩ := List.mem_map.mp hxx
    exact le_of_lt (Real.exp_pos _)
  have hle := List.single_le_sum hnn _ hx
  calc pathScore crf feats b p + crf.stop_transitions (p.getD M 0)
      = Real.log (Real.exp (pathScore crf feats b p
          + crf.stop_transitions (p.getD M 0))) := (Real.log_exp _).symm
    _ ≤ Real.log (((tagSeqs C (M + 1)).map
          (fun q => Real.exp
            (pathScore crf feats b q + crf.stop_transitions (q.getD M 0)))).sum) :=
        Real.log_le_log (Real.exp_pos _) hle

theorem crf_partition_ge_score_witness :
    sequenceScore trivCrf zeroFeats zeroTags 1 0
      ≤ partitionFunction trivCrf zeroFeats trivCrf.num_tags 1 0 :=
  crf_partition_ge_score trivCrf zeroFeats zeroTags 0 0 (by decide)
    (fun _ _ => Nat.one_pos)

/-- C1: with `C = num_tags > 0` and `L = M + 1`, the tag sequence decoded
by `CRF._viterbi` attains the maximal `CRF._sequence_score` among all `C^L`
candidate tag sequences of length `L`, and every decoded tag is a valid tag
index below `C`. -/
theorem crf_viterbi_optimal (crf : CRF) (feats : ℕ → ℕ → ℕ → ℝ)
    (b M : ℕ) (hC : 0 < crf.num_tags) :
    (∀ p ∈ tagSeqs crf.num_tags (M + 1),
      sequenceScore crf feats (fun _ t => p.getD t 0) (M + 1) b
        ≤ sequenceScore crf feats
            (fun _ t => viterbiDecode crf feats crf.num_tags (M + 1) b t) (M + 1) b)
    ∧ (∀ t, viterbiDecode crf feats crf.num_tags (M + 1) b t < crf.num_tags) := by
  set C := crf.num_tags with hCdef
  obtain ⟨hfTlt, hfTmax⟩ :=
    argmaxFirst_spec (fun j => viterbiV crf feats C b M j + crf.stop_transitions j) hC
  have hdec : ∀ t < M + 1, viterbiDecode crf feats C (M + 1) b t
      = (btPath crf feats C b M (finalTag crf feats C b (M + 1))).getD t 0 := by
    intro t ht
    show btTagBack crf feats C b M (finalTag crf feats C b (M + 1)) (M - t) = _
    have h := btPath_getD_eq crf feats C b M (finalTag crf feats C b (M + 1)) (M - t)
      (by omega)
    rw [show M - (M - t) = t from by omega] at h
    exact h.symm
  have hPlen : (btPath crf feats C b M (finalTag crf feats C b (M + 1))).length = M + 1 :=
    btPath_length crf feats C b M _
  have hPlast : (btPath crf feats C b M (finalTag crf feats C b (M + 1))).getD M 0
      = finalTag crf feats C b (M + 1) := btPath_getD_last crf feats C b M _
  have hPscore : pathScore crf feats b (btPath crf feats C b M (finalTag crf feats C b (M + 1)))
      = viterbiV crf feats C b M (finalTag crf feats C b (M + 1)) :=
    btPath_score crf feats b hC M _
  have hvseq : sequenceScore crf feats
        (fun _ t => viterbiDecode crf feats C (M + 1) b t) (M + 1) b
      = viterbiV crf feats C b M (finalTag crf feats C b (M + 1))
        + crf.stop_transitions (finalTag crf feats C b (M + 1)) := by
    rw [sequenceScore_congr crf feats
        (fun _ t => viterbiDecode crf feats C (M + 1) b t)
        (fun _ t => (btPath crf feats C b M (finalTag crf feats C b (M + 1))).getD t 0) M b
        (fun t ht => hdec t ht),
      sequenceScore_eq_pathScore crf feats b M _ hPlen, hPscore, hPlast]
  constructor
  · intro p hp
    have hplen : p.length = M + 1 := tagSeqs_length hp
    obtain ⟨q, hq, k, hk, rfl⟩ := mem_tagSeqs_succ.mp hp
    have hqkgd : (q ++ [k]).getD M 0 = k := by
      have h := getD_snoc_last q k
      rwa [tagSeqs_length hq] at h
    rw [sequenceScore_eq_pathScore crf feats b M (q ++ [k]) hplen, hqkgd, hvseq]
    have h1 : pathScore crf feats b (q ++ [k]) ≤ viterbiV crf feats C b M k :=
      pathScore_le_viterbiV crf feats b hC M q hq k
    have h2 : viterbiV crf feats C b M k + crf.stop_transitions k
        ≤ maxOver (fun j => viterbiV crf feats C b M j + crf.stop_transitions j) C :=
      le_maxOver (fun j => viterbiV crf feats C b M j + crf.stop_transitions j) hk
    calc pathScore crf feats b (q ++ [k]) + crf.stop_transitions k
        ≤ viterbiV crf feats C b M k + crf.stop_transitions k := by linarith
      _ ≤ maxOver (fun j => viterbiV crf feats C b M j + crf.stop_transitions j) C := h2
      _ = viterbiV crf feats C b M (finalTag crf feats C b (M + 1))
          + crf.stop_transitions (finalTag crf feats C b (M + 1)) := hfTmax.symm
  · intro t
    show btTagBack crf feats C b M (finalTag crf feats C b (M + 1)) (M - t) < C
    exact btTagBack_lt crf feats b hC M _ hfTlt _

theorem crf_viterbi_optimal_witness :
    sequenceScore trivCrf zeroFeats (fun _ t => ([0] : List ℕ).getD t 0) 1 0
      ≤ sequenceScore trivCrf zeroFeats
          (fun _ t => viterbiDecode trivCrf zeroFeats trivCrf.num_tags 1 0 t) 1 0 :=
  (crf_viterbi_optimal trivCrf zeroFeats 0 0 (by decide)).1 [0] (by decide)

/-- C4: for well-shaped inputs — `feats` of shape `[B, L, C]`, `tags` of
shape `[B, L]`, `C` equal to the store's `num_tags` — `CRF.loss` returns
the negative of the mean over the batch of (sequence score minus partition
function). -/
theorem crf_loss_eq_neg_mean (crf : CRF) (feats : RTensor) (tags : NTensor)
    (B L C : ℕ) (hf : feats.shape = [B, L + 1, C]) (ht : tags.shape = [B, L + 1])
    (hc : crf.num_tags = C) :
    lossT crf feats tags
      = .ok (-((∑ b ∈ Finset.range B,
          (sequenceScore crf (fun b' t j => feats.val [b', t, j])
              (fun b' t => tags.val [b', t]) (L + 1) b
            - partitionFunction crf (fun b' t j => feats.val [b', t, j]) C (L + 1) b))
          / (B : ℝ))) := by
  have hpart : partitionT crf feats
      = .ok (fun b => partitionFunction crf (fun b' t j => feats.val [b', t, j]) C (L + 1) b) := by
    unfold partitionT
    rw [hf]
    show (if crf.num_tags ≠ C then (Except.error "num_tags mismatch")
        else .ok fun b =>
          partitionFunction crf (fun b' t j => feats.val [b', t, j]) C (L + 1) b)
      = _
    rw [if_neg (by rw [hc]; simp)]
  unfold lossT
  rw [if_neg (by rw [hf]; simp), if_neg (by rw [ht]; simp),
    if_neg (by rw [hf, ht]; simp), hpart, hf]
  rfl

theorem crf_loss_eq_neg_mean_witness :
    lossT trivCrf unitFeats unitTags
      = .ok (-((∑ b ∈ Finset.range 1,
          (sequenceScore trivCrf (fun b' t j => unitFeats.val [b', t, j])
              (fun b' t => unitTags.val [b', t]) (0 + 1) b
            - partitionFunction trivCrf (fun b' t j => unitFeats.val [b', t, j]) 1 (0 + 1) b))
          / ((1 : ℕ) : ℝ))) :=
  crf_loss_eq_neg_mean trivCrf unitFeats unitTags 1 0 1 rfl rfl rfl

/-- C6: `CRF.loss` returns one of its three shape errors (and no value)
whenever `feats` is not rank-3, `tags` is not rank-2, or their leading two
dimensions disagree; and on a rank-3 emission tensor whose last dimension
differs from the store's `num_tags`, both `CRF._partition_function` and
`CRF._viterbi` return the tag-count error instead of a result. -/
theorem crf_shape_errors (crf : CRF) (feats : RTensor) (tags : NTensor)
    (B L C : ℕ) :
    ((feats.shape.length ≠ 3 ∨ tags.shape.length ≠ 2
        ∨ feats.shape.take 2 ≠ tags.shape) →
      (lossT crf feats tags = .error "feats must be 3-d"
        ∨ lossT crf feats tags = .error "tags must be 2-d"
        ∨ lossT crf feats tags
            = .error "First two dimensions of feats and tags must match"))
    ∧ (feats.shape = [B, L, C] → crf.num_tags ≠ C →
        partitionT crf feats = .error "num_tags mismatch"
        ∧ viterbiT crf feats = .error "num_tags mismatch") := by
  constructor
  · intro hbad
    unfold lossT
    by_cases h1 : feats.shape.length ≠ 3
    · rw [if_pos h1]
      exact Or.inl rfl
    · rw [if_neg h1]
      by_cases h2 : tags.shape.length ≠ 2
      · rw [if_pos h2]
        exact Or.inr (Or.inl rfl)
      · rw [if_neg h2]
        have h3 : feats.shape.take 2 ≠ tags.shape := by tauto
        rw [if_pos h3]
        exact Or.inr (Or.inr rfl)
  · intro hf hc
    constructor
    · unfold partitionT
      rw [hf]
      show (if crf.num_tags ≠ C then (Except.error "num_tags mismatch")
          else .ok fun b =>
            partitionFunction crf (fun b' t j => feats.val [b', t, j]) C L b)
        = _
      rw [if_pos hc]
    · unfold viterbiT
      rw [hf]
      show (if crf.num_tags ≠ C then (Except.error "num_tags mismatch")
          else .ok fun b t =>
            viterbiDecode crf (fun b' t' j => feats.val [b', t', j]) C L b t)
        = _
      rw [if_pos hc]

theorem crf_shape_errors_witness :
    (lossT trivCrf rankOneTensor unitTags = .error "feats must be 3-d"
      ∨ lossT trivCrf rankOneTensor unitTags = .error "tags must be 2-d"
      ∨ lossT trivCrf rankOneTensor unitTags
          = .error "First two dimensions of feats and tags must match")
    ∧ (partitionT trivCrf shape123Tensor = .error "num_tags mismatch"
        ∧ viterbiT trivCrf shape123Tensor = .error "num_tags mismatch") :=
  ⟨(crf_shape_errors trivCrf rankOneTensor unitTags 1 2 3).1 (Or.inl (by decide)),
   (crf_shape_errors trivCrf shape123Tensor unitTags 1 2 3).2 rfl (by decide)⟩

/-- C7: construction of the Potentials Store succeeds exactly when
`num_tags > 0`; for `num_tags ≤ 0` it fails (negative tensor dimension, or
the zero division inside the xavier initialization — see `initCRF`). -/
theorem crf_init_pos (n : ℤ) (T : ℕ → ℕ → ℝ) (S E : ℕ → ℝ) :
    (∃ c, initCRF n T S E = .ok c) ↔ 0 < n := by
  unfold initCRF
  by_cases h1 : n < 0
  · rw [if_pos h1]
    constructor
    · rintro ⟨c, hc⟩
      simp at hc
    · intro h
      omega
  · rw [if_neg h1]
    by_cases h2 : n = 0
    · rw [if_pos h2]
      constructor
      · rintro ⟨c, hc⟩
        simp at hc
      · intro h
        omega
    · rw [if_neg h2]
      constructor
      · intro _
        omega
      · intro _
        exact ⟨_, rfl⟩

theorem getD_mem_or_default (l : List ℤ) (n : ℕ) : l.getD n 0 = 0 ∨ l.getD n 0 ∈ l := by
  rcases Nat.lt_or_ge n l.length with h | h
  · right
    rw [List.getD_eq_getElem _ _ h]
    exact List.getElem_mem h
  · left
    exact List.getD_eq_default _ _ h

theorem pyGet_mem_or_zero (l : List ℤ) (i : ℤ) : pyGet l i = 0 ∨ pyGet l i ∈ l := by
  unfold pyGet
  split
  · exact getD_mem_or_default l _
  · exact getD_mem_or_default l _

/-- If the prediction stream contains no literal `1`, pass 2 never opens a
span and leaves the false-positive count unchanged. -/
theorem pass2go_no_one (tl pl : List ℤ) (h : ∀ x ∈ pl, x ≠ 1) :
    ∀ rem i stpt fp, pass2go tl pl rem i false stpt fp = fp := by
  intro rem
  induction rem with
  | zero => intro i stpt fp; rfl
  | succ rem ih =>
    intro i stpt fp
    have hpv : pyGet pl (i : ℤ) ≠ 1 := by
      rcases pyGet_mem_or_zero pl (i : ℤ) with h0 | hm
      · rw [h0]; norm_num
      · exact h _ hm
    have hflag : (if pyGet pl (i : ℤ) = 1 ∧ True then true else false) = false := by
      rw [if_neg (by simp [hpv])]
    simp only [pass2go]
    rw [hflag, if_neg (by simp)]
    exact ih (i + 1) _ fp

/-- C8: with scan counts `(TP, FN, FP)`, `f1_score` fails with a
`ZeroDivisionError` whenever `TP + FP = 0` (the precision division) or
`TP + FN = 0` (the recall division); only when both denominators are
nonzero does it return a value, and only that final combination carries a
zero convention (`F1 = 0` exactly when `precision = recall = 0`). -/
theorem f1_division_unguarded (preds targets : List (List ℤ)) (TP FN FP : ℕ)
    (hc : (f1Main preds targets).2.2 = .ok (TP, FN, FP)) :
    ((TP + FP = 0 ∨ TP + FN = 0) → f1_score preds targets = .error "ZeroDivisionError")
    ∧ (TP + FP ≠ 0 → TP + FN ≠ 0 →
        f1_score preds targets
          = .ok (if (TP : ℚ) / ((TP : ℚ) + (FP : ℚ)) ≠ 0
                ∨ (TP : ℚ) / ((TP : ℚ) + (FN : ℚ)) ≠ 0
              then 2 * ((TP : ℚ) / ((TP : ℚ) + (FP : ℚ)))
                  * ((TP : ℚ) / ((TP : ℚ) + (FN : ℚ)))
                  / ((TP : ℚ) / ((TP : ℚ) + (FP : ℚ))
                    + (TP : ℚ) / ((TP : ℚ) + (FN : ℚ)))
              else 0)) := by
  have hred : f1_score preds targets
      = (if TP + FP = 0 then (Except.error "ZeroDivisionError" : Except String ℚ)
        else if TP + FN = 0 then .error "ZeroDivisionError"
        else .ok (if (TP : ℚ) / ((TP : ℚ) + (FP : ℚ)) ≠ 0
              ∨ (TP : ℚ) / ((TP : ℚ) + (FN : ℚ)) ≠ 0
            then 2 * ((TP : ℚ) / ((TP : ℚ) + (FP : ℚ)))
                * ((TP : ℚ) / ((TP : ℚ) + (FN : ℚ)))
                / ((TP : ℚ) / ((TP : ℚ) + (FP : ℚ))
                  + (TP : ℚ) / ((TP : ℚ) + (FN : ℚ)))
            else 0)) := by
    unfold f1_score
    rw [hc]
  constructor
  · intro hz
    by_cases h1 : TP + FP = 0
    · rw [hred, if_pos h1]
    · have h2 : TP + FN = 0 := by tauto
      rw [hred, if_neg h1, if_pos h2]
  · intro h1 h2
    rw [hred, if_neg h1, if_neg h2]

theorem f1_division_unguarded_witness :
    f1_score [([0] : List ℤ)] [([2] : List ℤ)] = .error "ZeroDivisionError" :=
  (f1_division_unguarded [[0]] [[2]] 0 1 0 rfl).1 (Or.inl rfl)

/-- C9 counterexample: on `pred = [2, 1]`, `target = [0, 0]` the unique
predicted span starts with tag `2` — nonzero and not `1` — yet it is not
skipped by pass 2: the scan opens at the interior `1`, the boundary
comparison mismatches, and the counts are `(TP, FN, FP) = (0, 0, 1)`,
contradicting the claim that such a span contributes no `FP`. -/
theorem f1_pass2_nonone_span_counterexample :
    (f1Main [([2, 1] : List ℤ)] [([0, 0] : List ℤ)]).2.2 = .ok (0, 0, 1)
    ∧ pass2 [(0 : ℤ), 0, 0] [(2 : ℤ), 1, 0] = 1 :=
  ⟨rfl, rfl⟩

/-- C9 (amended): pass 2 opens predicted spans only at the literal value
`1` (pass 1 opens gold spans at any nonzero value), so a prediction
sequence containing no `1` anywhere contributes no false positives even if
it contains other nonzero tags; a predicted span whose first tag is not `1`
is not opened at its first position, but it can still be opened at a later
interior `1` and then contribute an `FP`.  The end-to-end example
`pred = target = [2]` shows the asymmetry: the gold span opens on `2` and
is counted as a true positive, while pass 2 never opens and adds no `FP`. -/
theorem f1_pass2_literal_one (tl : List ℤ) :
    (∀ pl : List ℤ, (∀ x ∈ pl, x ≠ 1) → pass2 tl pl = 0)
    ∧ (f1Main [([2] : List ℤ)] [([2] : List ℤ)]).2.2 = .ok (1, 0, 0) := by
  constructor
  · intro pl hpl
    exact pass2go_no_one tl pl hpl pl.length 0 0 0
  · rfl

theorem f1_pass2_literal_one_witness :
    pass2 [(5 : ℤ), 0] [(7 : ℤ), 0] = 0 :=
  (f1_pass2_literal_one [(5 : ℤ), 0]).1 [(7 : ℤ), 0] (by decide)

/-- C10: under normal operation (equally many prediction and target
sequences, pairwise equal inner lengths) `f1_score` mutates its caller's
data: on return every inner list of both `preds` and `targets` is its
original content with the sentinel `0` appended — one element longer, all
original elements unchanged; and a boundary comparison whose range starts
at `start - 1 = -1` reads the final (appended sentinel) element of the
extended sequence, which is `0`, rather than failing. -/
theorem f1_mutates_inputs (preds targets : List (List ℤ))
    (hlen : preds.length = targets.length)
    (hinner : ∀ pr ∈ preds.zip targets, pr.1.length = pr.2.length) :
    (f1Main preds targets).1 = preds.map (fun l => l ++ [0])
    ∧ (f1Main preds targets).2.1 = targets.map (fun l => l ++ [0])
    ∧ ∀ l : List ℤ, pyGet (l ++ [0]) (-1) = 0 := by
  have hneg : ∀ l : List ℤ, pyGet (l ++ [0]) (-1) = 0 := by
    intro l
    unfold pyGet
    rw [if_pos (by norm_num)]
    have hlen2 : (((l ++ [0]).length : ℤ) + (-1)).toNat = l.length := by
      simp [List.length_append]
    rw [hlen2, List.getD_append_right _ _ _ _ (le_refl _)]
    simp
  have main : ∀ ps ts : List (List ℤ), ps.length = ts.length →
      (∀ pr ∈ ps.zip ts, pr.1.length = pr.2.length) →
      (f1Main ps ts).1 = ps.map (fun l => l ++ [0])
        ∧ (f1Main ps ts).2.1 = ts.map (fun l => l ++ [0]) := by
    intro ps
    induction ps with
    | nil =>
      intro ts hl _
      have hts : ts = [] := List.eq_nil_of_length_eq_zero hl.symm
      subst hts
      exact ⟨rfl, rfl⟩
    | cons p ps ih =>
      intro ts hl hin
      match ts with
      | [] => simp at hl
      | t :: ts =>
        have hpt : p.length = t.length := hin (p, t) (by simp)
        have h1 : f1Main (p :: ps) (t :: ts)
            = ((p ++ [0]) :: (f1Main ps ts).1, (t ++ [0]) :: (f1Main ps ts).2.1,
              match (f1Main ps ts).2.2 with
              | .error e => .error e
              | .ok c =>
                .ok ((pass1 (t ++ [0]) (p ++ [0])).1 + c.1,
                  (pass1 (t ++ [0]) (p ++ [0])).2 + c.2.1,
                  pass2 (t ++ [0]) (p ++ [0]) + c.2.2)) := by
          simp only [f1Main]
          rw [if_neg (not_ne_iff.mpr hpt)]
        obtain ⟨ih1, ih2⟩ := ih ts (by simpa using hl)
          (fun pr hpr => hin pr (List.mem_cons_of_mem _ hpr))
        constructor
        · rw [h1, List.map_cons]
          show (p ++ [0]) :: (f1Main ps ts).1 = (p ++ [0]) :: ps.map (fun l => l ++ [0])
          rw [ih1]
        · rw [h1, List.map_cons]
          show (t ++ [0]) :: (f1Main ps ts).2.1 = (t ++ [0]) :: ts.map (fun l => l ++ [0])
          rw [ih2]
  obtain ⟨h1, h2⟩ := main preds targets hlen hinner
  exact ⟨h1, h2, hneg⟩

theorem f1_mutates_inputs_witness :
    (f1Main [([1] : List ℤ)] [([2] : List ℤ)]).1 = [[1, 0]]
    ∧ (f1Main [([1] : List ℤ)] [([2] : List ℤ)]).2.1 = [[2, 0]]
    ∧ pyGet ([(5 : ℤ)] ++ [0]) (-1) = 0 := by
  obtain ⟨h1, h2, h3⟩ := f1_mutates_inputs [[1]] [[2]] rfl (by decide)
  exact ⟨by rw [h1]; rfl, by rw [h2]; rfl, h3 [5]⟩
